import Mathlib

/-!
Verification development for a runtime dependency-injection container
(registry of service descriptors with lifetimes, a recursive resolver with
cycle detection, per-request scopes with disposal, a static validator, and
an ambient accessor), together with the request-scope middleware.

The middleware (`RequestScopeMiddleware.dispatch`) is translated from
`src/fastapi_injection/middleware.py`.  The container itself
(`Services`, its registration/resolution/validation operations and the
request-scope context variable) is not part of the provided sources; those
definitions are modelled from the specification, with the repository's test
suite as corroborating evidence for observable behaviour (error classes,
message fragments, instance-identity behaviour).

Modelling conventions:
- Python object identity is modelled by `Nat` instance ids minted from a
  strictly increasing `nextId` counter; two instances are identical iff
  their ids are equal.
- Each execution of an implementation constructor or factory appends the
  resolved key to the ghost log `constructions` (mirroring the test suite's
  `CounterService._instance_count` instrumentation).
- Each invocation of a dispose callback appends the disposed instance id to
  the ghost log `disposals`.
- The request-scope `ContextVar` holding the scope map is modelled by the
  `scope : Option (List ScopeEntry)` field; `none` means no active scope.
-/

/-- A service key: the name of the interface/implementation type under which
a service is registered and resolved.  Equality is type identity. -/
abbrev Key := String

/-- Modelled from the spec: the three service lifetimes
(`Lifetime.SINGLETON / SCOPED / TRANSIENT` in the source). -/
inductive Lifetime
  | singleton
  | scoped
  | transient
deriving Repr, DecidableEq

/-- Modelled from the spec: a `ServiceDescriptor`.  A constructor-based
descriptor carries the declared service-typed dependency parameters of the
implementation (`deps`); a factory-based descriptor has `deps = []`, since a
factory is invoked with no automatic parameter resolution.  `hasDispose`
records whether an optional dispose callback was registered. -/
structure ServiceDescriptor where
  deps : List Key
  lifetime : Lifetime
  hasDispose : Bool
deriving Repr, DecidableEq

/-- One entry of an active scope map: `(key, instance, dispose callback?)`. -/
structure ScopeEntry where
  key : Key
  instId : Nat
  hasDispose : Bool
deriving Repr, DecidableEq

/-- Modelled from the spec: the whole container state (`Services`), holding
the Registry (`registry`), the lazily populated Singleton Store
(`singletons`), the request-scope context variable (`scope`), the
instance-identity counter (`nextId`) and the two ghost event logs. -/
structure Services where
  registry : List (Key × ServiceDescriptor)
  singletons : List (Key × Nat)
  scope : Option (List ScopeEntry)
  nextId : Nat
  constructions : List Key
  disposals : List Nat
deriving Repr, DecidableEq

/-- Error kinds of the container (each Python exception class, plus the
ambient accessor's "no container configured" condition, which the test
suite shows is surfaced through `ServiceNotRegisteredError` with a
distinguished message). -/
inductive DIErr
  | serviceNotRegistered (k : Key)
  | scopeNotFound (k : Key)
  | circularDependency (chain : List Key)
  | noContainerConfigured
  | outOfFuel
deriving Repr, DecidableEq

/-- Rendered exception message of each error, following the fragments the
test suite asserts (`"not registered"`, `"No service container
configured"`, `"Circular"`). -/
def DIErr.message : DIErr → String
  | .serviceNotRegistered k => "Service " ++ k ++ " is not registered"
  | .scopeNotFound k => "No active scope found while resolving " ++ k
  | .circularDependency chain =>
      "Circular dependency detected: " ++ String.intercalate " -> " chain
  | .noContainerConfigured => "No service container configured"
  | .outOfFuel => "resolution depth exceeded"

/-- Python exception class carrying each error (per the test suite:
the no-container error is raised as `ServiceNotRegisteredError`). -/
def DIErr.pyClass : DIErr → String
  | .serviceNotRegistered _ => "ServiceNotRegisteredError"
  | .scopeNotFound _ => "ScopeNotFoundError"
  | .circularDependency _ => "CircularDependencyError"
  | .noContainerConfigured => "ServiceNotRegisteredError"
  | .outOfFuel => "RecursionError"

/-- First-match association lookup in the registry (re-registering a key
prepends, so the most recent descriptor wins — the silent-overwrite
semantics of §9 of the spec). -/
def lookupReg : List (Key × ServiceDescriptor) → Key → Option ServiceDescriptor
  | [], _ => none
  | (k', d) :: rest, k => if k' = k then some d else lookupReg rest k

/-- First-match lookup in the singleton store. -/
def lookupSing : List (Key × Nat) → Key → Option Nat
  | [], _ => none
  | (k', i) :: rest, k => if k' = k then some i else lookupSing rest k

/-- First-match lookup in a scope map. -/
def lookupScope : List ScopeEntry → Key → Option Nat
  | [], _ => none
  | e :: rest, k => if e.key = k then some e.instId else lookupScope rest k

/-- The entries of the currently active scope (empty when no scope). -/
def Services.scopeEntries (s : Services) : List ScopeEntry :=
  s.scope.getD []

/-- Resolve a list of keys left to right with a given single-key resolver,
threading the container state; the first failure propagates (used for the
recursive resolution of a constructor's declared dependencies). -/
def resolveMany (f : Services → Key → Except DIErr (Nat × Services)) :
    Services → List Key → Except DIErr (List Nat × Services)
  | s, [] => .ok ([], s)
  | s, k :: rest =>
    match f s k with
    | .error e => .error e
    | .ok (i, s') =>
      match resolveMany f s' rest with
      | .error e => .error e
      | .ok (is, s'') => .ok (i :: is, s'')

/-- One step of the resolver (spec §4.2), parameterised by the resolver
`rec` used for dependencies one level deeper.  `ctx` is the Resolution
Context: the chain of keys currently under construction, most recent first.
A key already in the context fails with `CircularDependency` naming the
full chain.  Per lifetime: singleton — consult the Singleton Store, else
construct and store; scoped — require an active scope, consult its map,
else construct and store `(instance, dispose)`; transient — always
construct.  Construction resolves the declared dependencies recursively and
then mints a fresh instance id. -/
def resolveStep
    (rec : Services → List Key → Key → Except DIErr (Nat × Services))
    (s : Services) (ctx : List Key) (k : Key) :
    Except DIErr (Nat × Services) :=
  match lookupReg s.registry k with
  | none => .error (.serviceNotRegistered k)
  | some d =>
    if k ∈ ctx then .error (.circularDependency ((k :: ctx).reverse))
    else
      match d.lifetime with
      | .singleton =>
        match lookupSing s.singletons k with
        | some i => .ok (i, s)
        | none =>
          match resolveMany (fun s' j => rec s' (k :: ctx) j) s d.deps with
          | .error e => .error e
          | .ok (_, s₁) =>
            .ok (s₁.nextId,
              { s₁ with
                nextId := s₁.nextId + 1
                singletons := (k, s₁.nextId) :: s₁.singletons
                constructions := s₁.constructions ++ [k] })
      | .scoped =>
        match s.scope with
        | none => .error (.scopeNotFound k)
        | some m =>
          match lookupScope m k with
          | some i => .ok (i, s)
          | none =>
            match resolveMany (fun s' j => rec s' (k :: ctx) j) s d.deps with
            | .error e => .error e
            | .ok (_, s₁) =>
              match s₁.scope with
              | none => .error (.scopeNotFound k)
              | some m₁ =>
                .ok (s₁.nextId,
                  { s₁ with
                    nextId := s₁.nextId + 1
                    scope := some (⟨k, s₁.nextId, d.hasDispose⟩ :: m₁)
                    constructions := s₁.constructions ++ [k] })
      | .transient =>
        match resolveMany (fun s' j => rec s' (k :: ctx) j) s d.deps with
        | .error e => .error e
        | .ok (_, s₁) =>
          .ok (s₁.nextId,
            { s₁ with
              nextId := s₁.nextId + 1
              constructions := s₁.constructions ++ [k] })

/-- Fuel-indexed resolver; the fuel only bounds the depth of the dependency
chain, which cycle detection already bounds by the number of registered
keys, so the `outOfFuel` branch is unreachable from the public entry point. -/
def resolveIn : Nat → Services → List Key → Key → Except DIErr (Nat × Services)
  | 0, _, _, _ => .error .outOfFuel
  | fuel + 1, s, ctx, k => resolveStep (resolveIn fuel) s ctx k

/-- `resolve(key)` (spec §4.2): the public resolver entry point, opening a
fresh Resolution Context. -/
def Services.resolve (s : Services) (k : Key) : Except DIErr (Nat × Services) :=
  resolveIn (s.registry.length + 1) s [] k

/-- `is_registered(key)`. -/
def Services.is_registered (s : Services) (k : Key) : Bool :=
  (lookupReg s.registry k).isSome

/-- `get_registration(key)`. -/
def Services.get_registration (s : Services) (k : Key) :
    Option ServiceDescriptor :=
  lookupReg s.registry k

/-- Store/replace the descriptor for a key (most recent registration wins). -/
def Services.register (s : Services) (k : Key) (d : ServiceDescriptor) :
    Services :=
  { s with registry := (k, d) :: s.registry }

/-- `add_singleton(key, implementation)` with declared dependencies `deps`. -/
def Services.add_singleton (s : Services) (k : Key) (deps : List Key) :
    Services :=
  s.register k ⟨deps, .singleton, false⟩

/-- `add_scoped(key, implementation)` with declared dependencies `deps`. -/
def Services.add_scoped (s : Services) (k : Key) (deps : List Key) : Services :=
  s.register k ⟨deps, .scoped, false⟩

/-- `add_transient(key, implementation)` with declared dependencies `deps`. -/
def Services.add_transient (s : Services) (k : Key) (deps : List Key) :
    Services :=
  s.register k ⟨deps, .transient, false⟩

/-- `add_singleton_factory(key, factory)`: factories get no automatic
dependency resolution, hence no declared dependencies. -/
def Services.add_singleton_factory (s : Services) (k : Key) : Services :=
  s.register k ⟨[], .singleton, false⟩

/-- `add_scoped_factory(key, factory, dispose?)`. -/
def Services.add_scoped_factory (s : Services) (k : Key) (dispose : Bool) :
    Services :=
  s.register k ⟨[], .scoped, dispose⟩

/-- `add_transient_factory(key, factory)`. -/
def Services.add_transient_factory (s : Services) (k : Key) : Services :=
  s.register k ⟨[], .transient, false⟩

/-- `clear()` (spec §4.1): removes all descriptors and purges the singleton
store.  Nothing else is touched — in particular a still-active scope map
(held by the request's context variable) survives. -/
def Services.clear (s : Services) : Services :=
  { s with registry := [], singletons := [] }

/-- `install(installer)`: invokes the installer on the container and returns
the (updated) container for chaining. -/
def Services.install (s : Services) (installer : Services → Services) :
    Services :=
  installer s

/-- Installing a new, empty scope map as the active scope
(`scope_var.set({})` performed by the middleware per request). -/
def Services.beginScope (s : Services) : Services :=
  { s with scope := some [] }

/-- `dispose_scope()`: for every scoped instance held by the active scope
that carries a dispose callback, invoke it (exactly once per entry); without
an active scope this is a no-op. -/
def Services.dispose_scope (s : Services) : Services :=
  match s.scope with
  | none => s
  | some m =>
    { s with
      disposals := s.disposals ++ (m.filter (·.hasDispose)).map (·.instId) }

/-- A request handler modelled as the sequence of keys it resolves: run the
resolutions left to right; a resolution failure aborts the handler like the
propagating exception it is (`false` = the handler raised). -/
def runOps : Services → List Key → Services × Bool
  | s, [] => (s, true)
  | s, k :: rest =>
    match s.resolve k with
    | .ok (_, s') => runOps s' rest
    | .error _ => (s, false)

/-- `RequestScopeMiddleware.dispatch` (translated from
`src/fastapi_injection/middleware.py`): remember the context variable's
prior value as the token, install a fresh empty scope map, run the handler
(`call_next`), and in the `finally` block dispose the scoped services and
only then reset the context variable to the token.  `raises` models the
handler raising after its resolutions succeeded; the returned `Bool` is
whether the request finished without an exception. -/
def dispatch (s : Services) (ops : List Key) (raises : Bool) :
    Services × Bool :=
  let token := s.scope
  let (s₂, ok) := runOps s.beginScope ops
  let s₃ := s₂.dispose_scope
  ({ s₃ with scope := token }, ok && !raises)

/-- A fresh container, as built by the `services` test fixture. -/
def emptyServices : Services :=
  { registry := []
    singletons := []
    scope := none
    nextId := 0
    constructions := []
    disposals := [] }

/-- Ambient resolution `resolve(key)` at module level (spec §4.5): resolve
on the currently active container, or fail with the distinguished
no-container error when none is configured. -/
def resolve_global (g : Option Services) (k : Key) :
    Except DIErr (Nat × Services) :=
  match g with
  | none => .error .noContainerConfigured
  | some c => c.resolve k

/-- Well-formedness of a container state: every instance id recorded in the
singleton store or the active scope map was minted below `nextId`.  This
holds for every state reachable from `emptyServices` and makes freshly
minted ids distinct from all stored ones. -/
def WF (s : Services) : Prop :=
  (∀ p ∈ s.singletons, p.2 < s.nextId) ∧
    (∀ e ∈ s.scopeEntries, e.instId < s.nextId)

/-! Validator (spec §4.4): pure static analysis over the registry's declared
dependency edges, producing structured findings that are rendered to the
strings `validate()` returns. -/

/-- The declared (static) dependency edges out of a key: the declared
dependencies of its registered descriptor, or none when unregistered. -/
def declaredDeps (reg : List (Key × ServiceDescriptor)) (k : Key) : List Key :=
  match lookupReg reg k with
  | some d => d.deps
  | none => []

/-- The registered keys, each once, in registry order. -/
def regKeys (reg : List (Key × ServiceDescriptor)) : List Key :=
  (reg.map Prod.fst).dedup

/-- A structured validation finding: a missing dependency (naming the
required dependency and the key that requires it) or a circular dependency
(naming the cycle). -/
inductive VMsg
  | missing (requiredBy : Key) (dep : Key)
  | circular (chain : List Key)
deriving Repr, DecidableEq

/-- Rendering of a finding to the string `validate()` returns; a missing
message names both keys and contains "not registered", a circular message
begins with "Circular dependency". -/
def VMsg.render : VMsg → String
  | .missing requiredBy dep =>
      "Service " ++ dep ++ " is not registered (required by "
        ++ requiredBy ++ ")"
  | .circular chain =>
      "Circular dependency detected: " ++ String.intercalate " -> " chain

/-- All missing-dependency findings: for every registered key, one finding
per declared dependency that is not itself registered. -/
def missingList (reg : List (Key × ServiceDescriptor)) : List VMsg :=
  (regKeys reg).flatMap fun k =>
    ((declaredDeps reg k).filter fun j => (lookupReg reg j).isNone).map
      fun j => VMsg.missing k j

/-- Search the direct dependencies `ds` of the current key for a path to
`tgt`: either a direct edge, or a path found by the one-level-deeper search
`f`; returns the path without its starting key. -/
def findFrom (f : Key → Option (List Key)) (tgt : Key) :
    List Key → Option (List Key)
  | [] => none
  | j :: rest =>
    if j = tgt then some [tgt]
    else
      match f j with
      | some p => some (j :: p)
      | none => findFrom f tgt rest

/-- Fuel-bounded depth-first search for a dependency path of at least one
edge from `cur` to `tgt`; `some p` yields the full path `cur :: p` ending
at `tgt`. -/
def findPath (reg : List (Key × ServiceDescriptor)) :
    Nat → Key → Key → Option (List Key)
  | 0, _, _ => none
  | fuel + 1, cur, tgt => findFrom (fun j => findPath reg fuel j tgt) tgt
      (declaredDeps reg cur)

/-- All circular-dependency findings: for each registered key lying on a
cycle, the cycle found by the bounded search (a simple cycle never needs
more edges than there are registry entries). -/
def circularList (reg : List (Key × ServiceDescriptor)) : List VMsg :=
  (regKeys reg).filterMap fun k =>
    (findPath reg reg.length k k).map fun p => VMsg.circular (k :: p)

/-- The structured findings of `validate()`. -/
def Services.validateMsgs (s : Services) : List VMsg :=
  missingList s.registry ++ circularList s.registry

/-- `validate()` (spec §4.4): the rendered findings; empty exactly when the
static dependency graph is fully satisfiable and acyclic.  It inspects the
registry only and instantiates nothing. -/
def Services.validate (s : Services) : List String :=
  s.validateMsgs.map VMsg.render

/-! Spec-side graph notions used to state the validator's correctness. -/

/-- `chainOk a p` holds when `a :: p` is a path in the declared dependency
graph: each key declares the next as a dependency. -/
def chainOk (reg : List (Key × ServiceDescriptor)) : Key → List Key → Bool
  | _, [] => true
  | a, b :: rest => (b ∈ declaredDeps reg a : Bool) && chainOk reg b rest

/-- The static dependency graph has a cycle: some nonempty declared-edge
path leads from a key back to itself. -/
def HasCycle (reg : List (Key × ServiceDescriptor)) : Prop :=
  ∃ a p, p ≠ [] ∧ chainOk reg a p = true ∧ p.getLast? = some a

/-! String-search helper used to state message-content properties. -/

/-- Character-list version of "starts with". -/
def charsPre : List Char → List Char → Bool
  | [], _ => true
  | _ :: _, [] => false
  | c :: cs, d :: ds => c = d && charsPre cs ds

/-- Character-list version of "contains the pattern somewhere". -/
def subSearch (p : List Char) : List Char → Bool
  | [] => charsPre p []
  | l@(_ :: rest) => charsPre p l || subSearch p rest

/-- `containsSub pat s` decides whether `pat` occurs in `s`. -/
def containsSub (pat s : String) : Bool :=
  subSearch pat.toList s.toList

/-! Relations used to state what a resolution step may do to the container
state. -/

/-- How a resolution may change the active scope: absence of a scope is
preserved, and an active scope map is only ever extended at the front with
entries whose instance ids are minted at or above the starting `nextId`. -/
def ScopePres (s s' : Services) : Prop :=
  (s.scope = none → s'.scope = none) ∧
    ∀ m, s.scope = some m →
      ∃ pre, s'.scope = some (pre ++ m) ∧ ∀ e ∈ pre, s.nextId ≤ e.instId

/-- Everything a resolution with Resolution Context `ctx` preserves: the
registry and the disposal log are untouched, `nextId` is monotone, no key
currently under construction is constructed again, the scope evolves per
`ScopePres`, and well-formedness is preserved. -/
def StepRel (ctx : List Key) (s s' : Services) : Prop :=
  s'.registry = s.registry ∧
    s.nextId ≤ s'.nextId ∧
    s'.disposals = s.disposals ∧
    (∀ j ∈ ctx, s'.constructions.count j = s.constructions.count j) ∧
    ScopePres s s' ∧
    (WF s → WF s')

/-! Basic properties of the step relation. -/

theorem StepRel.refl (ctx : List Key) (s : Services) : StepRel ctx s s :=
  ⟨rfl, le_rfl, rfl, fun _ _ => rfl,
    ⟨fun h => h, fun m hm => ⟨[], by simpa using hm, by simp⟩⟩,
    fun h => h⟩

theorem StepRel.comp {ctx : List Key} {s t u : Services}
    (h₁ : StepRel ctx s t) (h₂ : StepRel ctx t u) : StepRel ctx s u := by
  obtain ⟨r₁, n₁, d₁, c₁, ⟨p₁, q₁⟩, w₁⟩ := h₁
  obtain ⟨r₂, n₂, d₂, c₂, ⟨p₂, q₂⟩, w₂⟩ := h₂
  refine ⟨r₂.trans r₁, n₁.trans n₂, d₂.trans d₁,
    fun j hj => (c₂ j hj).trans (c₁ j hj), ⟨fun h => p₂ (p₁ h), ?_⟩,
    fun h => w₂ (w₁ h)⟩
  intro m hm
  obtain ⟨pre₁, hpre₁, hb₁⟩ := q₁ m hm
  obtain ⟨pre₂, hpre₂, hb₂⟩ := q₂ (pre₁ ++ m) hpre₁
  refine ⟨pre₂ ++ pre₁, by simpa using hpre₂, ?_⟩
  intro e he
  rcases List.mem_append.1 he with h | h
  · exact n₁.trans (hb₂ e h)
  · exact hb₁ e h

theorem StepRel.of_cons {k : Key} {ctx : List Key} {s s' : Services}
    (h : StepRel (k :: ctx) s s') : StepRel ctx s s' :=
  ⟨h.1, h.2.1, h.2.2.1, fun j hj => h.2.2.2.1 j (List.mem_cons_of_mem _ hj),
    h.2.2.2.2.1, h.2.2.2.2.2⟩

/-- Resolving a dependency list preserves the step relation and returns
only instance ids below the final `nextId`. -/
theorem resolveMany_rel
    {f : Services → Key → Except DIErr (Nat × Services)} {ctx : List Key}
    (hf : ∀ s k i s', f s k = .ok (i, s') →
      StepRel ctx s s' ∧ (WF s → i < s'.nextId)) :
    ∀ (ks : List Key) (s : Services) (is : List Nat) (s' : Services),
      resolveMany f s ks = .ok (is, s') →
      StepRel ctx s s' ∧ (WF s → ∀ i ∈ is, i < s'.nextId) := by
  intro ks
  induction ks with
  | nil =>
    intro s is s' h
    simp only [resolveMany] at h
    obtain ⟨rfl, rfl⟩ : is = [] ∧ s' = s := by
      refine ⟨?_, ?_⟩ <;> cases h <;> rfl
    exact ⟨StepRel.refl _ _, fun _ => by simp⟩
  | cons k rest ih =>
    intro s is s' h
    simp only [resolveMany] at h
    split at h
    · cases h
    · rename_i i t hk
      split at h
      · cases h
      · rename_i is2 s2 hr
        cases h
        obtain ⟨rel₁, bd₁⟩ := hf s k i t hk
        obtain ⟨rel₂, bd₂⟩ := ih t _ _ hr
        refine ⟨rel₁.comp rel₂, fun hwf i' hi' => ?_⟩
        rcases List.mem_cons.1 hi' with rfl | hmem
        · exact lt_of_lt_of_le (bd₁ hwf) rel₂.2.1
        · exact bd₂ (rel₁.2.2.2.2.2 hwf) i' hmem

/-- A successful singleton-store lookup returns a stored entry. -/
theorem lookupSing_mem :
    ∀ {l : List (Key × Nat)} {k : Key} {i : Nat},
      lookupSing l k = some i → (k, i) ∈ l := by
  intro l
  induction l with
  | nil => intro k i h; cases h
  | cons p rest ih =>
    intro k i h
    obtain ⟨k', i'⟩ := p
    simp only [lookupSing] at h
    split at h
    · rename_i hk
      cases h
      subst hk
      exact List.mem_cons_self _ _
    · exact List.mem_cons_of_mem _ (ih h)

/-- A successful scope-map lookup returns a stored entry. -/
theorem lookupScope_mem :
    ∀ {m : List ScopeEntry} {k : Key} {i : Nat},
      lookupScope m k = some i → ∃ e ∈ m, e.key = k ∧ e.instId = i := by
  intro m
  induction m with
  | nil => intro k i h; cases h
  | cons e rest ih =>
    intro k i h
    simp only [lookupScope] at h
    split at h
    · rename_i hk
      cases h
      exact ⟨e, List.mem_cons_self _ _, hk, rfl⟩
    · obtain ⟨e', he', hk', hi'⟩ := ih h
      exact ⟨e', List.mem_cons_of_mem _ he', hk', hi'⟩

/-- One resolver step preserves the step relation and mints ids below the
final `nextId`, assuming the deeper resolver does. -/
theorem resolveStep_rel
    {rec : Services → List Key → Key → Except DIErr (Nat × Services)}
    (hrec : ∀ s ctx k i s', rec s ctx k = .ok (i, s') →
      StepRel ctx s s' ∧ (WF s → i < s'.nextId)) :
    ∀ s ctx k i s', resolveStep rec s ctx k = .ok (i, s') →
      StepRel ctx s s' ∧ (WF s → i < s'.nextId) := by
  intro s ctx k i s' h
  have hmany : ∀ ctx' (s₀ : Services) (is : List Nat) (s₁ : Services)
      (ks : List Key),
      resolveMany (fun t j => rec t ctx' j) s₀ ks = .ok (is, s₁) →
      StepRel ctx' s₀ s₁ ∧ (WF s₀ → ∀ i' ∈ is, i' < s₁.nextId) := by
    intro ctx' s₀ is s₁ ks hm
    exact resolveMany_rel (fun t j i' t' hj => hrec t ctx' j i' t' hj)
      ks s₀ is s₁ hm
  unfold resolveStep at h
  split at h
  · cases h
  · rename_i d hd
    split at h
    · cases h
    · rename_i hctx
      split at h
      -- singleton lifetime
      · split at h
        · rename_i i0 hsing
          cases h
          refine ⟨StepRel.refl _ _, fun hwf => ?_⟩
          exact hwf.1 _ (lookupSing_mem hsing)
        · rename_i hsing
          split at h
          · cases h
          · rename_i is1 s1 hdeps
            cases h
            obtain ⟨rel₁, _⟩ := hmany (k :: ctx) s is1 s1 d.deps hdeps
            obtain ⟨hreg, hnext, hdisp, hcnt, ⟨hsnone, hssome⟩, hwf₁⟩ := rel₁
            refine ⟨⟨hreg, by simp [hnext.trans (Nat.le_succ _)], hdisp,
              ?_, ⟨fun hn => hsnone hn, ?_⟩, ?_⟩, fun _ => by simp⟩
            · intro j hj
              have hjk : j ≠ k := fun hjk => hctx (hjk ▸ hj)
              simp [List.count_append, List.count_cons, hjk,
                hcnt j (List.mem_cons_of_mem _ hj)]
            · intro m hm
              obtain ⟨pre, hpre, hb⟩ := hssome m hm
              exact ⟨pre, by simpa using hpre, hb⟩
            · intro hwf
              obtain ⟨hw1, hw2⟩ := hwf₁ hwf
              refine ⟨?_, ?_⟩
              · intro p hp
                rcases List.mem_cons.1 hp with rfl | hp'
                · simp
                · exact (hw1 p hp').trans (Nat.lt_succ_self _)
              · intro e he
                exact (hw2 e he).trans (Nat.lt_succ_self _)
      -- scoped lifetime
      · rename_i hlt
        split at h
        · cases h
        · rename_i m hscope
          split at h
          · rename_i i0 hsc
            cases h
            refine ⟨StepRel.refl _ _, fun hwf => ?_⟩
            obtain ⟨e, he, _, hei⟩ := lookupScope_mem hsc
            have : e ∈ s.scopeEntries := by
              simp [Services.scopeEntries, hscope, he]
            exact hei ▸ hwf.2 e this
          · rename_i hsc
            split at h
            · cases h
            · rename_i is1 s1 hdeps
              split at h
              · cases h
              · rename_i m1 hm1
                cases h
                obtain ⟨rel₁, _⟩ := hmany (k :: ctx) s is1 s1 d.deps hdeps
                obtain ⟨hreg, hnext, hdisp, hcnt, ⟨hsnone, hssome⟩, hwf₁⟩ :=
                  rel₁
                refine ⟨⟨hreg, by simp [hnext.trans (Nat.le_succ _)], hdisp,
                  ?_, ⟨?_, ?_⟩, ?_⟩, fun _ => by simp⟩
                · intro j hj
                  have hjk : j ≠ k := fun hjk => hctx (hjk ▸ hj)
                  simp [List.count_append, List.count_cons, hjk,
                    hcnt j (List.mem_cons_of_mem _ hj)]
                · intro hn
                  rw [hscope] at hn
                  cases hn
                · intro mq hmq
                  have hmqm : mq = m := by
                    rw [hscope] at hmq
                    exact (Option.some.inj hmq).symm
                  subst hmqm
                  obtain ⟨pre, hpre, hb⟩ := hssome mq hscope
                  have hm1eq : m1 = pre ++ mq := by
                    rw [hm1] at hpre
                    exact Option.some.inj hpre
                  refine ⟨⟨k, s1.nextId, d.hasDispose⟩ :: pre, ?_, ?_⟩
                  · simp [hm1eq]
                  · intro e he
                    rcases List.mem_cons.1 he with rfl | he2
                    · exact hnext
                    · exact hb e he2
                · intro hwf
                  obtain ⟨hw1, hw2⟩ := hwf₁ hwf
                  refine ⟨?_, ?_⟩
                  · intro p hp
                    exact (hw1 p hp).trans (Nat.lt_succ_self _)
                  · intro e he
                    simp only [Services.scopeEntries, Option.getD] at he ⊢
                    rcases List.mem_cons.1 he with rfl | he'
                    · simp
                    · have : e ∈ s1.scopeEntries := by
                        simp [Services.scopeEntries, hm1, he']
                      exact (hw2 e this).trans (Nat.lt_succ_self _)
      -- transient lifetime
      · rename_i hlt
        split at h
        · cases h
        · rename_i is1 s1 hdeps
          cases h
          obtain ⟨rel₁, _⟩ := hmany (k :: ctx) s is1 s1 d.deps hdeps
          obtain ⟨hreg, hnext, hdisp, hcnt, ⟨hsnone, hssome⟩, hwf₁⟩ := rel₁
          refine ⟨⟨hreg, by simp [hnext.trans (Nat.le_succ _)], hdisp,
            ?_, ⟨fun hn => hsnone hn, ?_⟩, ?_⟩, fun _ => by simp⟩
          · intro j hj
            have hjk : j ≠ k := fun hjk => hctx (hjk ▸ hj)
            simp [List.count_append, List.count_cons, hjk,
              hcnt j (List.mem_cons_of_mem _ hj)]
          · intro m hm
            obtain ⟨pre, hpre, hb⟩ := hssome m hm
            exact ⟨pre, by simpa using hpre, hb⟩
          · intro hwf
            obtain ⟨hw1, hw2⟩ := hwf₁ hwf
            refine ⟨?_, ?_⟩
            · intro p hp
              exact (hw1 p hp).trans (Nat.lt_succ_self _)
            · intro e he
              exact (hw2 e he).trans (Nat.lt_succ_self _)

/-- The fuel-indexed resolver preserves the step relation at every fuel. -/
theorem resolveIn_rel :
    ∀ (fuel : Nat) (s : Services) (ctx : List Key) (k : Key) (i : Nat)
      (s' : Services), resolveIn fuel s ctx k = .ok (i, s') →
      StepRel ctx s s' ∧ (WF s → i < s'.nextId) := by
  intro fuel
  induction fuel with
  | zero => intro s ctx k i s' h; cases h
  | succ fuel ih => exact resolveStep_rel ih

/-- `resolve` preserves the step relation (with an empty Resolution
Context) and, from a well-formed state, returns an id below the final
`nextId`. -/
theorem resolve_rel {s : Services} {k : Key} {i : Nat} {s' : Services}
    (h : s.resolve k = .ok (i, s')) :
    StepRel [] s s' ∧ (WF s → i < s'.nextId) :=
  resolveIn_rel _ s [] k i s' h

/-- Unfolding the public resolver by one step. -/
theorem resolve_eq (s : Services) (k : Key) :
    s.resolve k = resolveStep (resolveIn s.registry.length) s [] k := rfl

/-- Resolving an unregistered key fails with `ServiceNotRegistered`. -/
theorem resolve_not_registered {s : Services} {k : Key}
    (h : lookupReg s.registry k = none) :
    s.resolve k = .error (.serviceNotRegistered k) := by
  rw [resolve_eq]
  unfold resolveStep
  rw [h]

/-- A singleton whose instance is already in the Singleton Store resolves
to that instance without touching the state at all. -/
theorem resolve_singleton_hit {s : Services} {k : Key}
    {d : ServiceDescriptor} {i : Nat}
    (h₁ : lookupReg s.registry k = some d) (h₂ : d.lifetime = .singleton)
    (h₃ : lookupSing s.singletons k = some i) :
    s.resolve k = .ok (i, s) := by
  rw [resolve_eq]
  unfold resolveStep
  rw [h₁]
  simp [h₂, h₃]

/-- Resolving a scoped key without an active scope fails with
`ScopeNotFound` for that key. -/
theorem resolve_scoped_none {s : Services} {k : Key} {d : ServiceDescriptor}
    (h₁ : lookupReg s.registry k = some d) (h₂ : d.lifetime = .scoped)
    (h₃ : s.scope = none) :
    s.resolve k = .error (.scopeNotFound k) := by
  rw [resolve_eq]
  unfold resolveStep
  rw [h₁]
  simp [h₂, h₃]

/-- A scoped key whose instance is already in the active scope map resolves
to that instance without touching the state at all. -/
theorem resolve_scoped_hit {s : Services} {k : Key} {d : ServiceDescriptor}
    {m : List ScopeEntry} {i : Nat}
    (h₁ : lookupReg s.registry k = some d) (h₂ : d.lifetime = .scoped)
    (h₃ : s.scope = some m) (h₄ : lookupScope m k = some i) :
    s.resolve k = .ok (i, s) := by
  rw [resolve_eq]
  unfold resolveStep
  rw [h₁]
  simp [h₂, h₃, h₄]

/-- A singleton cache miss constructs exactly one fresh instance, stores it
in the Singleton Store, and bumps `nextId` past it. -/
theorem resolve_singleton_miss {s : Services} {k : Key}
    {d : ServiceDescriptor} {i : Nat} {s' : Services}
    (h₁ : lookupReg s.registry k = some d) (h₂ : d.lifetime = .singleton)
    (h₃ : lookupSing s.singletons k = none)
    (h₄ : s.resolve k = .ok (i, s')) :
    s.nextId ≤ i ∧ s'.nextId = i + 1 ∧ lookupSing s'.singletons k = some i ∧
      s'.constructions.count k = s.constructions.count k + 1 := by
  rw [resolve_eq] at h₄
  unfold resolveStep at h₄
  rw [h₁] at h₄
  simp only [h₂, h₃, List.not_mem_nil, if_false, ite_false,
    decide_False, Bool.false_eq_true] at h₄
  split at h₄
  · cases h₄
  · rename_i is1 s1 hdeps
    cases h₄
    obtain ⟨rel, _⟩ := resolveMany_rel
      (fun t j i' t' hj => resolveIn_rel _ t [k] j i' t' hj)
      d.deps s is1 s1 hdeps
    refine ⟨rel.2.1, rfl, by simp [lookupSing], ?_⟩
    simp [List.count_append, List.count_cons,
      rel.2.2.2.1 k (List.mem_cons_self _ _)]

/-- A scoped cache miss within an active scope constructs exactly one fresh
instance and prepends it (with its dispose flag) to the scope map; all
other entries of the resulting map carry ids below the fresh one. -/
theorem resolve_scoped_miss {s : Services} {k : Key} {d : ServiceDescriptor}
    {m : List ScopeEntry} {i : Nat} {s' : Services}
    (h₁ : lookupReg s.registry k = some d) (h₂ : d.lifetime = .scoped)
    (h₃ : s.scope = some m) (h₄ : lookupScope m k = none)
    (h₅ : s.resolve k = .ok (i, s')) :
    s.nextId ≤ i ∧ s'.nextId = i + 1 ∧
      (∃ m₁, s'.scope = some (⟨k, i, d.hasDispose⟩ :: m₁) ∧
        (WF s → ∀ e ∈ m₁, e.instId < i)) ∧
      s'.constructions.count k = s.constructions.count k + 1 := by
  rw [resolve_eq] at h₅
  unfold resolveStep at h₅
  rw [h₁] at h₅
  simp only [h₂, h₃, h₄, List.not_mem_nil, if_false, ite_false,
    decide_False, Bool.false_eq_true] at h₅
  split at h₅
  · cases h₅
  · rename_i is1 s1 hdeps
    split at h₅
    · cases h₅
    · rename_i m1 hm1
      cases h₅
      obtain ⟨rel, _⟩ := resolveMany_rel
        (fun t j i' t' hj => resolveIn_rel _ t [k] j i' t' hj)
        d.deps s is1 s1 hdeps
      refine ⟨rel.2.1, rfl, ⟨m1, rfl, ?_⟩, ?_⟩
      · intro hwf e he
        have hwf1 := rel.2.2.2.2.2 hwf
        have : e ∈ s1.scopeEntries := by
          simp [Services.scopeEntries, hm1, he]
        exact hwf1.2 e this
      · simp [List.count_append, List.count_cons,
          rel.2.2.2.1 k (List.mem_cons_self _ _)]

/-- A transient resolution always constructs exactly one fresh instance and
bumps `nextId` past it. -/
theorem resolve_transient_ok {s : Services} {k : Key}
    {d : ServiceDescriptor} {i : Nat} {s' : Services}
    (h₁ : lookupReg s.registry k = some d) (h₂ : d.lifetime = .transient)
    (h₃ : s.resolve k = .ok (i, s')) :
    s.nextId ≤ i ∧ s'.nextId = i + 1 ∧
      s'.constructions.count k = s.constructions.count k + 1 := by
  rw [resolve_eq] at h₃
  unfold resolveStep at h₃
  rw [h₁] at h₃
  simp only [h₂, List.not_mem_nil, if_false, ite_false,
    decide_False, Bool.false_eq_true] at h₃
  split at h₃
  · cases h₃
  · rename_i is1 s1 hdeps
    cases h₃
    obtain ⟨rel, _⟩ := resolveMany_rel
      (fun t j i' t' hj => resolveIn_rel _ t [k] j i' t' hj)
      d.deps s is1 s1 hdeps
    refine ⟨rel.2.1, rfl, ?_⟩
    simp [List.count_append, List.count_cons,
      rel.2.2.2.1 k (List.mem_cons_self _ _)]

/-- Claim C1: for a key registered with Singleton lifetime (constructor- or
factory-based, i.e. any descriptor), a successful `resolve` leaves the
instance in the Singleton Store, runs the underlying constructor/factory at
most once, and every subsequent `resolve` of the key returns the identical
instance while changing nothing at all (so the constructor never runs
again over the container's lifetime). -/
theorem singleton_resolved_once {s : Services} {k : Key}
    {d : ServiceDescriptor} {i : Nat} {s₁ : Services}
    (h₁ : lookupReg s.registry k = some d) (h₂ : d.lifetime = .singleton)
    (h₃ : s.resolve k = .ok (i, s₁)) :
    s₁.resolve k = .ok (i, s₁) ∧ lookupSing s₁.singletons k = some i ∧
      s₁.constructions.count k ≤ s.constructions.count k + 1 := by
  have hreg : s₁.registry = s.registry := (resolve_rel h₃).1.1
  cases hsing : lookupSing s.singletons k with
  | some i0 =>
    have hres := resolve_singleton_hit h₁ h₂ hsing
    rw [hres] at h₃
    cases h₃
    exact ⟨resolve_singleton_hit h₁ h₂ hsing, hsing, Nat.le_succ _⟩
  | none =>
    obtain ⟨_, _, hlook, hcnt⟩ := resolve_singleton_miss h₁ h₂ hsing h₃
    exact ⟨resolve_singleton_hit (hreg ▸ h₁) h₂ hlook, hlook, le_of_eq hcnt⟩

/-- Post-state of resolving the singleton "A" in the witness container. -/
def c1State : Services :=
  { registry := [("A", ⟨[], .singleton, false⟩)]
    singletons := [("A", 0)]
    scope := none
    nextId := 1
    constructions := ["A"]
    disposals := [] }

theorem singleton_resolved_once_witness :
    c1State.resolve "A" = .ok (0, c1State) ∧
      lookupSing c1State.singletons "A" = some 0 ∧
      c1State.constructions.count "A" ≤
        (emptyServices.add_singleton "A" []).constructions.count "A" + 1 :=
  singleton_resolved_once (s := emptyServices.add_singleton "A" [])
    (d := ⟨[], .singleton, false⟩) rfl rfl rfl

/-- Claim C9: for a key registered with Transient lifetime, every `resolve`
runs the constructor/factory exactly once more (nothing is cached), and two
consecutive resolutions return two distinct instances. -/
theorem transient_always_fresh {s : Services} {k : Key}
    {d : ServiceDescriptor} {i₁ i₂ : Nat} {s₁ s₂ : Services}
    (h₁ : lookupReg s.registry k = some d) (h₂ : d.lifetime = .transient)
    (h₃ : s.resolve k = .ok (i₁, s₁)) (h₄ : s₁.resolve k = .ok (i₂, s₂)) :
    i₁ ≠ i₂ ∧
      s₁.constructions.count k = s.constructions.count k + 1 ∧
      s₂.constructions.count k = s₁.constructions.count k + 1 := by
  obtain ⟨hle₁, hnx₁, hc₁⟩ := resolve_transient_ok h₁ h₂ h₃
  have hreg : s₁.registry = s.registry := (resolve_rel h₃).1.1
  obtain ⟨hle₂, hnx₂, hc₂⟩ := resolve_transient_ok (hreg ▸ h₁) h₂ h₄
  exact ⟨by omega, hc₁, hc₂⟩

theorem transient_always_fresh_witness :
    (0 : Nat) ≠ 1 ∧
      (Services.mk [("A", ⟨[], .transient, false⟩)] [] none 1 ["A"] []
          ).constructions.count "A" =
        (emptyServices.add_transient "A" []).constructions.count "A" + 1 ∧
      (Services.mk [("A", ⟨[], .transient, false⟩)] [] none 2 ["A", "A"] []
          ).constructions.count "A" =
        (Services.mk [("A", ⟨[], .transient, false⟩)] [] none 1 ["A"] []
          ).constructions.count "A" + 1 :=
  transient_always_fresh (s := emptyServices.add_transient "A" [])
    (d := ⟨[], .transient, false⟩) rfl rfl rfl rfl

/-- Claim C2: for a key registered with Scoped lifetime, within one active
scope the key is constructed at most once and every further `resolve`
returns the identical instance without changing anything; resolving the key
in a second, fresh scope yields a distinct instance (scopes never share
scoped instances). -/
theorem scoped_isolated_per_scope {s : Services} {k : Key}
    {d : ServiceDescriptor} {i₁ i₂ : Nat} {s₁ s₂ : Services}
    (h₁ : lookupReg s.registry k = some d) (h₂ : d.lifetime = .scoped)
    (h₃ : s.beginScope.resolve k = .ok (i₁, s₁))
    (h₄ : s₁.beginScope.resolve k = .ok (i₂, s₂)) :
    s₁.resolve k = .ok (i₁, s₁) ∧
      s₁.constructions.count k ≤ s.constructions.count k + 1 ∧
      i₁ ≠ i₂ := by
  have h₁b : lookupReg s.beginScope.registry k = some d := h₁
  obtain ⟨hle₁, hnx₁, ⟨m₁, hsc₁, _⟩, hcnt₁⟩ :=
    resolve_scoped_miss h₁b h₂ rfl rfl h₃
  have hreg₁ : s₁.registry = s.registry := (resolve_rel h₃).1.1
  obtain ⟨hle₂, hnx₂, _, _⟩ :=
    resolve_scoped_miss (k := k) (d := d) (m := []) (hreg₁ ▸ h₁) h₂ rfl rfl h₄
  have he₁ : s.beginScope.nextId = s.nextId := rfl
  have he₂ : s₁.beginScope.nextId = s₁.nextId := rfl
  refine ⟨?_, le_of_eq hcnt₁, by omega⟩
  exact resolve_scoped_hit (hreg₁ ▸ h₁) h₂ hsc₁ (by simp [lookupScope])

/-- Post-state of resolving the scoped "A" inside the first scope. -/
def c2State : Services :=
  { registry := [("A", ⟨[], .scoped, false⟩)]
    singletons := []
    scope := some [⟨"A", 0, false⟩]
    nextId := 1
    constructions := ["A"]
    disposals := [] }

/-- Post-state of resolving the scoped "A" inside the second scope. -/
def c2State2 : Services :=
  { registry := [("A", ⟨[], .scoped, false⟩)]
    singletons := []
    scope := some [⟨"A", 1, false⟩]
    nextId := 2
    constructions := ["A", "A"]
    disposals := [] }

theorem scoped_isolated_per_scope_witness :
    c2State.resolve "A" = .ok (0, c2State) ∧
      c2State.constructions.count "A" ≤
        (emptyServices.add_scoped "A" []).constructions.count "A" + 1 ∧
      (0 : Nat) ≠ 1 :=
  @scoped_isolated_per_scope (emptyServices.add_scoped "A" []) "A"
    ⟨[], .scoped, false⟩ 0 1 c2State c2State2 rfl rfl rfl rfl

/-- Claim C5: resolving a key registered with Scoped lifetime while no
scope is active fails deterministically with `ScopeNotFound` naming the
key; in particular it never returns an instance under any other lifetime
rule or a fallback value. -/
theorem scoped_without_scope_fails {s : Services} {k : Key}
    {d : ServiceDescriptor}
    (h₁ : lookupReg s.registry k = some d) (h₂ : d.lifetime = .scoped)
    (h₃ : s.scope = none) :
    s.resolve k = .error (.scopeNotFound k) :=
  resolve_scoped_none h₁ h₂ h₃

theorem scoped_without_scope_fails_witness :
    (emptyServices.add_scoped "A" []).resolve "A" =
      .error (.scopeNotFound "A") :=
  scoped_without_scope_fails (d := ⟨[], .scoped, false⟩) rfl rfl rfl

/-- Intermediate state for the `clear` counterexample: a scoped "A"
resolved inside a still-active scope. -/
def c6Mid : Services :=
  { registry := [("A", ⟨[], .scoped, false⟩)]
    singletons := []
    scope := some [⟨"A", 0, false⟩]
    nextId := 1
    constructions := ["A"]
    disposals := [] }

/-- Counterexample to claim C6 as stated: with a scope still active across
`clear()`, re-registering the scoped key "A" and resolving it returns the
instance with id 0 — the very instance obtained before the clear (and no
constructor runs again) — because `clear()` removes descriptors and purges
the singleton store but does not purge an active scope map. -/
theorem clear_counterexample :
    ((emptyServices.add_scoped "A" []).beginScope).resolve "A" =
        .ok (0, c6Mid) ∧
      ((c6Mid.clear).add_scoped "A" []).resolve "A" =
        .ok (0, (c6Mid.clear).add_scoped "A" []) :=
  ⟨rfl, rfl⟩

/-- Claim C6 (amended): after `clear()`, `is_registered` is false for every
key, the singleton store is purged, and every resolution fails with
`ServiceNotRegistered`; re-registering a key and resolving it yields an
instance distinct by identity from any instance obtained before the clear
whenever the resolution constructs afresh — in particular always for
Singleton lifetime (a stale entry for the key in a scope still active
across the clear is the one exception, per the counterexample). -/
theorem clear_purges {s : Services} {k : Key} {d : ServiceDescriptor}
    {i : Nat} {s₁ : Services}
    (hwf : WF s) (h₁ : s.resolve k = .ok (i, s₁))
    (h₂ : d.lifetime = .singleton) :
    (∀ k', (s₁.clear).is_registered k' = false) ∧
      (s₁.clear).singletons = [] ∧
      (∀ k', (s₁.clear).resolve k' =
        .error (.serviceNotRegistered k')) ∧
      ∀ i₂ s₂, ((s₁.clear).register k d).resolve k = .ok (i₂, s₂) →
        i₂ ≠ i := by
  refine ⟨fun k' => rfl, rfl, fun k' => resolve_not_registered rfl, ?_⟩
  intro i₂ s₂ h₃
  have hi : i < s₁.nextId := (resolve_rel h₁).2 hwf
  have h₁' : lookupReg ((s₁.clear).register k d).registry k = some d := by
    simp [Services.register, Services.clear, lookupReg]
  have hsing : lookupSing ((s₁.clear).register k d).singletons k = none := rfl
  obtain ⟨hle, _, _, _⟩ := resolve_singleton_miss h₁' h₂ hsing h₃
  have hnx : ((s₁.clear).register k d).nextId = s₁.nextId := rfl
  omega

theorem clear_purges_witness :
    WF (emptyServices.add_singleton "A" []) ∧
      ((∀ k', ((c1State.clear).is_registered k' = false)) ∧
        (c1State.clear).singletons = [] ∧
        (∀ k', (c1State.clear).resolve k' =
          .error (.serviceNotRegistered k')) ∧
        ∀ i₂ s₂, ((c1State.clear).register "A"
            ⟨[], .singleton, false⟩).resolve "A" = .ok (i₂, s₂) →
          i₂ ≠ 0) :=
  ⟨(by refine ⟨?_, ?_⟩ <;> intro x hx <;> cases hx),
    clear_purges (s := emptyServices.add_singleton "A" [])
      (by refine ⟨?_, ?_⟩ <;> intro x hx <;> cases hx) rfl rfl⟩

/-- The ambient no-container message begins with 'N', so it can never equal
the not-registered message for any key (which begins with 'S'). -/
theorem noContainer_message_ne (k : Key) :
    DIErr.noContainerConfigured.message ≠
      (DIErr.serviceNotRegistered k).message := by
  intro h
  have h' := congrArg (fun s => charsPre ['N'] s.data) h
  exact Bool.noConfusion (show (true : Bool) = false from h')

/-- Counterexample to claim C8 as stated: with no container configured,
ambient resolution fails with the no-container error, but its message is
"No service container configured", which is not (and does not contain) the
claimed message "no container configured". -/
theorem resolve_global_message_counterexample :
    resolve_global none "IGreetingService" =
        .error .noContainerConfigured ∧
      DIErr.noContainerConfigured.message =
        "No service container configured" ∧
      DIErr.noContainerConfigured.message ≠ "no container configured" ∧
      containsSub "no container configured"
        DIErr.noContainerConfigured.message = false :=
  ⟨rfl, rfl, by decide, by decide⟩

/-- Claim C8 (amended): ambient resolution on an active container is
definitionally direct resolution (hence obeys identical lifetime and scope
rules, including `ScopeNotFound` for scoped keys without a scope); with no
container active it fails with the distinguished error whose message is
"No service container configured" — a message that does not contain "not
registered" and differs from the not-registered message of every key. -/
theorem resolve_global_spec (c : Services) (k : Key) :
    resolve_global (some c) k = c.resolve k ∧
      resolve_global none k = .error .noContainerConfigured ∧
      DIErr.noContainerConfigured.message =
        "No service container configured" ∧
      containsSub "not registered"
        DIErr.noContainerConfigured.message = false ∧
      DIErr.noContainerConfigured.message ≠
        (DIErr.serviceNotRegistered k).message ∧
      ∀ d, lookupReg c.registry k = some d → d.lifetime = .scoped →
        c.scope = none →
        resolve_global (some c) k = .error (.scopeNotFound k) := by
  refine ⟨rfl, rfl, rfl, by decide, noContainer_message_ne k, ?_⟩
  intro d h₁ h₂ h₃
  exact resolve_scoped_none h₁ h₂ h₃

/-- Running a request handler's resolutions preserves the step relation
(with an empty context), whether or not a resolution fails midway. -/
theorem runOps_rel : ∀ (ops : List Key) (s s' : Services) (b : Bool),
    runOps s ops = (s', b) → StepRel [] s s' := by
  intro ops
  induction ops with
  | nil =>
    intro s s' b h
    cases h
    exact StepRel.refl _ _
  | cons k rest ih =>
    intro s s' b h
    simp only [runOps] at h
    split at h
    · rename_i i t hk
      exact ((resolve_rel hk).1).comp (ih t s' b h)
    · cases h
      exact StepRel.refl _ _

/-- Installing a fresh scope preserves well-formedness. -/
theorem WF_beginScope {s : Services} (h : WF s) : WF s.beginScope := by
  refine ⟨?_, ?_⟩
  · exact h.1
  · intro e he
    cases he

/-- No instance id outside a scope map appears among its disposals. -/
theorem countId_zero {l : List ScopeEntry} {i : Nat}
    (h : ∀ e ∈ l, e.instId ≠ i) :
    ((l.filter (·.hasDispose)).map (·.instId)).count i = 0 := by
  rw [List.count_eq_zero]
  intro hmem
  obtain ⟨e, he, heq⟩ := List.mem_map.1 hmem
  exact h e (List.mem_filter.1 he).1 heq

/-- The middleware's dispatch, written as a function of the handler run:
dispose the post-handler state's scope, then reset the scope variable to
the pre-request token. -/
theorem dispatch_eq (s : Services) (ops : List Key) (raises : Bool) :
    dispatch s ops raises =
      ({ (runOps s.beginScope ops).1.dispose_scope with scope := s.scope },
        (runOps s.beginScope ops).2 && !raises) := by
  unfold dispatch
  rcases hr : runOps s.beginScope ops with ⟨s3, b⟩
  rfl

/-- Claim C10: for every request — whether the handler returns normally,
raises after its resolutions, or fails during a resolution — the middleware
installs a fresh empty scope map before the handler runs (the handler is
evaluated on `s.beginScope`), invokes `dispose_scope` while that request's
scope map is still the current one (the disposal delta is computed from the
post-handler scope map, before any reset), and then resets the scope
context variable to its pre-request value, so outside a request the
current scope is again `none` whenever it was `none` before. -/
theorem dispatch_scope_lifecycle (s : Services) (ops : List Key)
    (raises : Bool) :
    (dispatch s ops raises).1.scope = s.scope ∧
      (s.scope = none → (dispatch s ops raises).1.scope = none) ∧
      ∃ m, (runOps s.beginScope ops).1.scope = some m ∧
        (dispatch s ops raises).1.disposals =
          (runOps s.beginScope ops).1.disposals ++
            (m.filter (·.hasDispose)).map (·.instId) := by
  rcases hr : runOps s.beginScope ops with ⟨s₃, b⟩
  have rel := runOps_rel ops _ _ _ hr
  obtain ⟨pre, hpre, _⟩ := rel.2.2.2.2.1.2 [] rfl
  rw [dispatch_eq, hr]
  refine ⟨rfl, fun h => h, pre ++ [], hpre, ?_⟩
  simp [Services.dispose_scope, hpre]

/-- Claim C4: a scoped registration carrying a dispose callback whose
instance is constructed during a request has its dispose callback invoked
exactly once when the middleware closes the request's scope —
unconditionally, in particular both when the handler raises after its
resolutions (`raises = true`) and when a later resolution fails — and the
scope variable is then reset to its pre-request value. -/
theorem scoped_dispose_exactly_once {s : Services} {k : Key}
    {d : ServiceDescriptor} {i : Nat} {s₂ : Services} {rest : List Key}
    (raises : Bool)
    (hwf : WF s) (h₁ : lookupReg s.registry k = some d)
    (h₂ : d.lifetime = .scoped) (h₃ : d.hasDispose = true)
    (h₄ : s.beginScope.resolve k = .ok (i, s₂)) :
    (dispatch s (k :: rest) raises).1.disposals.count i =
        s.disposals.count i + 1 ∧
      (dispatch s (k :: rest) raises).1.scope = s.scope := by
  have hwfb : WF s.beginScope := WF_beginScope hwf
  have h₁b : lookupReg s.beginScope.registry k = some d := h₁
  obtain ⟨hle, hnx, ⟨m₁, hsc, hm₁lt⟩, _⟩ :=
    resolve_scoped_miss (m := []) h₁b h₂ rfl rfl h₄
  have hrun : runOps s.beginScope (k :: rest) = runOps s₂ rest := by
    simp [runOps, h₄]
  rcases hr2 : runOps s₂ rest with ⟨s₃, b⟩
  have rel₂ : StepRel [] s₂ s₃ := runOps_rel rest s₂ s₃ b hr2
  obtain ⟨pre, hpre, hbound⟩ := rel₂.2.2.2.2.1.2 _ hsc
  have hd₃ : s₃.disposals = s.disposals := by
    rw [rel₂.2.2.1]
    exact (resolve_rel h₄).1.2.2.1
  have hpre0 : ((pre.filter (·.hasDispose)).map (·.instId)).count i = 0 :=
    countId_zero (fun e he => by have := hbound e he; omega)
  have hm₁0 : ((m₁.filter (·.hasDispose)).map (·.instId)).count i = 0 :=
    countId_zero (fun e he => by have := hm₁lt hwfb e he; omega)
  rw [dispatch_eq, hrun, hr2]
  refine ⟨?_, rfl⟩
  rw [h₃] at hpre
  simp only [Services.dispose_scope, hpre]
  simp [List.filter_append, List.count_append, hd₃,
    List.filter_cons, List.count_cons, hpre0, hm₁0]

/-- Post-handler state for the disposal witness: the scoped factory "S"
(with dispose callback) resolved inside the request scope. -/
def c4Mid : Services :=
  { registry := [("S", ⟨[], .scoped, true⟩)]
    singletons := []
    scope := some [⟨"S", 0, true⟩]
    nextId := 1
    constructions := ["S"]
    disposals := [] }

theorem scoped_dispose_exactly_once_witness :
    (dispatch (emptyServices.add_scoped_factory "S" true) ["S"]
          true).1.disposals.count 0 =
        (emptyServices.add_scoped_factory "S" true).disposals.count 0 + 1 ∧
      (dispatch (emptyServices.add_scoped_factory "S" true) ["S"]
          true).1.scope =
        (emptyServices.add_scoped_factory "S" true).scope :=
  @scoped_dispose_exactly_once (emptyServices.add_scoped_factory "S" true)
    "S" ⟨[], .scoped, true⟩ 0 c4Mid [] true
    (by refine ⟨?_, ?_⟩ <;> intro x hx <;> cases hx) rfl rfl rfl rfl

/-- Claim C3: for the cyclic registration graph A -> B -> A (any two
distinct keys, any lifetimes, any dispose flags, fresh stores, a scope
active so every lifetime reaches construction), `validate()` returns a
message naming the circular dependency, and directly resolving A fails
deterministically with `CircularDependency` naming the chain A -> B -> A —
the resolver is a total function, so it cannot recurse unboundedly. -/
theorem cycle_fails_deterministically {a b : Key} (hab : a ≠ b)
    (l₁ l₂ : Lifetime) (dsp₁ dsp₂ : Bool) (n : Nat) (cs : List Key)
    (ds : List Nat) :
    (VMsg.circular [a, b, a]).render ∈
        (Services.mk [(a, ⟨[b], l₁, dsp₁⟩), (b, ⟨[a], l₂, dsp₂⟩)]
          [] (some []) n cs ds).validate ∧
      (VMsg.circular [a, b, a]).render =
        "Circular dependency detected: " ++
          String.intercalate " -> " [a, b, a] ∧
      (Services.mk [(a, ⟨[b], l₁, dsp₁⟩), (b, ⟨[a], l₂, dsp₂⟩)]
          [] (some []) n cs ds).resolve a =
        .error (.circularDependency [a, b, a]) := by
  refine ⟨?_, rfl, ?_⟩
  · have hmem : VMsg.circular [a, b, a] ∈
        (Services.mk [(a, ⟨[b], l₁, dsp₁⟩), (b, ⟨[a], l₂, dsp₂⟩)]
          [] (some []) n cs ds).validateMsgs := by
      simp [Services.validateMsgs, missingList, circularList, regKeys,
        findPath, findFrom, declaredDeps, lookupReg,
        List.dedup_cons_of_not_mem, List.dedup_nil, hab, hab.symm]
    exact List.mem_map_of_mem _ hmem
  · rcases l₁ <;> rcases l₂ <;>
      simp [Services.resolve, resolveIn, resolveStep, resolveMany,
        lookupReg, lookupSing, lookupScope, hab, hab.symm]

theorem cycle_fails_deterministically_witness :
    (VMsg.circular ["A", "B", "A"]).render ∈
        (Services.mk
          [("A", ⟨["B"], .singleton, false⟩),
            ("B", ⟨["A"], .singleton, false⟩)]
          [] (some []) 0 [] []).validate ∧
      (VMsg.circular ["A", "B", "A"]).render =
        "Circular dependency detected: " ++
          String.intercalate " -> " ["A", "B", "A"] ∧
      (Services.mk
          [("A", ⟨["B"], .singleton, false⟩),
            ("B", ⟨["A"], .singleton, false⟩)]
          [] (some []) 0 [] []).resolve "A" =
        .error (.circularDependency ["A", "B", "A"]) :=
  cycle_fails_deterministically (by decide) .singleton .singleton
    false false 0 [] []

theorem resolve_global_spec_witness :
    resolve_global (some (emptyServices.add_scoped "A" [])) "A" =
      .error (.scopeNotFound "A") :=
  (resolve_global_spec (emptyServices.add_scoped "A" []) "A").2.2.2.2.2
    ⟨[], .scoped, false⟩ rfl rfl rfl

theorem dispatch_scope_lifecycle_witness :
    (dispatch emptyServices [] false).1.scope = none :=
  (dispatch_scope_lifecycle emptyServices [] false).2.1 rfl

/-- A key has a registry entry iff it occurs among the registered keys. -/
theorem lookupReg_isSome_iff :
    ∀ {reg : List (Key × ServiceDescriptor)} {k : Key},
      (lookupReg reg k).isSome = true ↔ k ∈ reg.map Prod.fst := by
  intro reg
  induction reg with
  | nil => intro k; simp [lookupReg]
  | cons p rest ih =>
    intro k
    obtain ⟨k', d⟩ := p
    by_cases hk : k' = k
    · subst hk
      simp [lookupReg]
    · simp [lookupReg, hk, ih, Ne.symm hk]

/-- Any path the dependency search returns through a direct-dependency list
is a real declared-edge path of at least one edge ending at the target. -/
theorem findFrom_sound {reg : List (Key × ServiceDescriptor)}
    {cur tgt : Key} {f : Key → Option (List Key)}
    (hf : ∀ j q, f j = some q →
      chainOk reg j q = true ∧ q ≠ [] ∧ q.getLast? = some tgt) :
    ∀ (ds : List Key), (∀ x ∈ ds, x ∈ declaredDeps reg cur) →
      ∀ p, findFrom f tgt ds = some p →
        chainOk reg cur p = true ∧ p ≠ [] ∧ p.getLast? = some tgt := by
  intro ds
  induction ds with
  | nil => intro _ p h; cases h
  | cons j rest ih =>
    intro hsub p h
    simp only [findFrom] at h
    split at h
    · rename_i hjt
      cases h
      subst hjt
      refine ⟨?_, by simp, by simp⟩
      simp [chainOk, hsub j (List.mem_cons_self _ _)]
    · split at h
      · rename_i q hq
        cases h
        obtain ⟨hc, hne, hlast⟩ := hf j q hq
        refine ⟨?_, by simp, ?_⟩
        · simp [chainOk, hsub j (List.mem_cons_self _ _), hc]
        · cases q with
          | nil => exact absurd rfl hne
          | cons q0 qs => simpa [List.getLast?_cons_cons] using hlast
      · exact ih (fun x hx => hsub x (List.mem_cons_of_mem _ hx)) p h

/-- Soundness of the bounded path search: a returned path is a genuine
declared-edge path of at least one edge from `cur` to `tgt`. -/
theorem findPath_sound {reg : List (Key × ServiceDescriptor)} :
    ∀ (fuel : Nat) (cur tgt : Key) (p : List Key),
      findPath reg fuel cur tgt = some p →
      chainOk reg cur p = true ∧ p ≠ [] ∧ p.getLast? = some tgt := by
  intro fuel
  induction fuel with
  | zero => intro cur tgt p h; cases h
  | succ fuel ih =>
    intro cur tgt p h
    simp only [findPath] at h
    exact findFrom_sound (fun j q hq => ih j tgt q hq) _
      (fun x hx => hx) p h

/-- Splitting a declared-edge path at an interior occurrence of `x`. -/
theorem chainOk_mid {reg : List (Key × ServiceDescriptor)} :
    ∀ (u : List Key) (a x : Key) (v : List Key),
      chainOk reg a (u ++ x :: v) = true ↔
        (chainOk reg a (u ++ [x]) = true ∧ chainOk reg x v = true) := by
  intro u
  induction u with
  | nil =>
    intro a x v
    simp [chainOk, Bool.and_eq_true]
  | cons w u2 ih =>
    intro a x v
    simp only [List.cons_append, chainOk, Bool.and_eq_true,
      decide_eq_true_eq, List.append_eq]
    rw [ih w x v]
    tauto

/-- A list that is not duplicate-free splits around a repeated element. -/
theorem exists_dup_split : ∀ {N : List Key}, ¬N.Nodup →
    ∃ l₁ x l₂ l₃, N = l₁ ++ x :: l₂ ++ x :: l₃ := by
  intro N
  induction N with
  | nil => intro h; exact absurd List.nodup_nil h
  | cons h t ih =>
    intro hnd
    by_cases hht : h ∈ t
    · obtain ⟨l₂, l₃, rfl⟩ := List.append_of_mem hht
      exact ⟨[], h, l₂, l₃, by simp⟩
    · have hnt : ¬t.Nodup := fun hn => hnd (List.nodup_cons.2 ⟨hht, hn⟩)
      obtain ⟨l₁, x, l₂, l₃, rfl⟩ := ih hnt
      exact ⟨h :: l₁, x, l₂, l₃, by simp⟩

/-- A duplicate-free list drawn from `K` is no longer than `K`. -/
theorem nodup_length_le {N K : List Key} (hnd : N.Nodup)
    (hsub : ∀ x ∈ N, x ∈ K) : N.length ≤ K.length := by
  have h1 : N.toFinset.card = N.length := List.toFinset_card_of_nodup hnd
  have h2 : N.toFinset ⊆ K.toFinset := by
    intro x hx
    exact List.mem_toFinset.2 (hsub x (List.mem_toFinset.1 hx))
  have h3 := Finset.card_le_card h2
  have h4 := K.toFinset_card_le
  omega

/-- Every node of a declared-edge path except possibly the final one has an
outgoing edge and is therefore registered. -/
theorem chainOk_sources {reg : List (Key × ServiceDescriptor)} :
    ∀ (p : List Key) (a : Key), chainOk reg a p = true →
      ∀ x ∈ (a :: p).dropLast, (lookupReg reg x).isSome = true := by
  intro p
  induction p with
  | nil => intro a _ x hx; simp at hx
  | cons j rest ih =>
    intro a hc x hx
    simp only [chainOk, Bool.and_eq_true, decide_eq_true_eq] at hc
    obtain ⟨hj, hrest⟩ := hc
    rw [List.dropLast_cons₂] at hx
    rcases List.mem_cons.1 hx with rfl | hx2
    · have hne : declaredDeps reg x ≠ [] := by
        intro h0
        rw [h0] at hj
        cases hj
      unfold declaredDeps at hne
      cases hreg : lookupReg reg x with
      | none => rw [hreg] at hne; simp at hne
      | some _ => simp
    · exact ih j hrest x hx2

/-- Any declared-edge cycle can be shortened to one of at most
`reg.length` edges (pigeonhole on the registered source nodes). -/
theorem cycle_shorten {reg : List (Key × ServiceDescriptor)} :
    ∀ (n : Nat) (p : List Key) (a : Key), p.length ≤ n →
      chainOk reg a p = true → p ≠ [] → p.getLast? = some a →
      ∃ q, chainOk reg a q = true ∧ q ≠ [] ∧ q.getLast? = some a ∧
        q.length ≤ reg.length := by
  intro n
  induction n with
  | zero =>
    intro p a hlen _ hne _
    cases p with
    | nil => exact absurd rfl hne
    | cons _ _ => simp at hlen
  | succ n ih =>
    intro p a hlen hc hne hlast
    by_cases hshort : p.length ≤ reg.length
    · exact ⟨p, hc, hne, hlast, hshort⟩
    · push_neg at hshort
      have hple : p = p.dropLast ++ [a] := by
        have h1 := List.dropLast_append_getLast hne
        have h2 : p.getLast hne = a := by
          have h3 := List.getLast?_eq_getLast p hne
          rw [h3] at hlast
          exact Option.some.inj hlast
        rw [← h2]
        exact h1.symm
      have hnd : ¬(a :: p.dropLast).Nodup := by
        intro hnd
        have hsub : ∀ x ∈ a :: p.dropLast, x ∈ reg.map Prod.fst := by
          intro x hx
          have hx' : x ∈ (a :: p).dropLast := by
            rw [List.dropLast_cons_of_ne_nil hne]
            exact hx
          exact lookupReg_isSome_iff.1 (chainOk_sources p a hc x hx')
        have hle := nodup_length_le hnd hsub
        have hlp : 0 < p.length := List.length_pos.2 hne
        simp [List.length_dropLast, List.length_map] at hle
        omega
      obtain ⟨l₁, x, l₂, l₃, hsplit⟩ := exists_dup_split hnd
      cases l₁ with
      | nil =>
        simp only [List.nil_append] at hsplit
        obtain ⟨hax, hdrop⟩ := List.cons.inj hsplit
        subst hax
        have hp2 : p = l₂ ++ a :: (l₃ ++ [a]) := by
          rw [hple, hdrop]
          simp
        rw [hp2] at hc
        obtain ⟨_, hc2⟩ := (chainOk_mid l₂ a a (l₃ ++ [a])).1 hc
        have hlp2 := congrArg List.length hp2
        simp only [List.length_append, List.length_cons,
          List.length_nil] at hlp2
        have hq : (l₃ ++ [a]).length ≤ n := by
          simp only [List.length_append, List.length_cons, List.length_nil]
          omega
        exact ih (l₃ ++ [a]) a hq hc2 (by simp) (List.getLast?_concat _)
      | cons h1 t1 =>
        simp only [List.cons_append] at hsplit
        obtain ⟨hax, hdrop⟩ := List.cons.inj hsplit
        have hp2 : p = t1 ++ x :: (l₂ ++ x :: (l₃ ++ [a])) := by
          rw [hple, hdrop]
          simp
        rw [hp2] at hc
        obtain ⟨hc1, hc2⟩ := (chainOk_mid t1 a x _).1 hc
        obtain ⟨_, hc3⟩ := (chainOk_mid l₂ x x (l₃ ++ [a])).1 hc2
        have hc4 : chainOk reg a (t1 ++ x :: (l₃ ++ [a])) = true :=
          (chainOk_mid t1 a x (l₃ ++ [a])).2 ⟨hc1, hc3⟩
        have hlast4 : (t1 ++ x :: (l₃ ++ [a])).getLast? = some a := by
          have hx1 : x :: (l₃ ++ [a]) = (x :: l₃) ++ [a] := by simp
          rw [List.getLast?_append_of_ne_nil _ (by simp), hx1,
            List.getLast?_concat]
        have hlp2 := congrArg List.length hp2
        simp only [List.length_append, List.length_cons,
          List.length_nil] at hlp2
        have hq : (t1 ++ x :: (l₃ ++ [a])).length ≤ n := by
          simp only [List.length_append, List.length_cons, List.length_nil]
          omega
        exact ih _ a hq hc4 (by simp) hlast4

/-- The dependency search succeeds as soon as one listed dependency is the
target or has a path found one level deeper. -/
theorem findFrom_isSome {f : Key → Option (List Key)} {tgt : Key} :
    ∀ {ds : List Key} {j : Key}, j ∈ ds →
      (j = tgt ∨ (f j).isSome = true) →
      (findFrom f tgt ds).isSome = true := by
  intro ds
  induction ds with
  | nil => intro j h; cases h
  | cons j' rest ih =>
    intro j hj hyp
    simp only [findFrom]
    split
    · simp
    · rename_i hj't
      split
      · simp
      · rename_i hfj'
        rcases List.mem_cons.1 hj with rfl | hjrest
        · rcases hyp with rfl | hs
          · exact absurd rfl hj't
          · rw [hfj'] at hs
            cases hs
        · exact ih hjrest hyp

/-- Completeness of the bounded path search: every declared-edge path of at
most `fuel` edges from `a` to `tgt` is found. -/
theorem findPath_complete {reg : List (Key × ServiceDescriptor)} :
    ∀ (p : List Key) (a tgt : Key) (fuel : Nat),
      chainOk reg a p = true → p ≠ [] → p.getLast? = some tgt →
      p.length ≤ fuel → (findPath reg fuel a tgt).isSome = true := by
  intro p
  induction p with
  | nil => intro a tgt fuel _ hne _ _; exact absurd rfl hne
  | cons j rest ih =>
    intro a tgt fuel hc hne hlast hlen
    cases fuel with
    | zero => simp at hlen
    | succ fuel =>
      simp only [findPath]
      simp only [chainOk, Bool.and_eq_true, decide_eq_true_eq] at hc
      obtain ⟨hj, hcrest⟩ := hc
      cases rest with
      | nil =>
        have hjt : j = tgt := by simpa using hlast
        exact findFrom_isSome hj (Or.inl hjt)
      | cons r0 rs =>
        have hlast' : (r0 :: rs).getLast? = some tgt := by
          simpa [List.getLast?_cons_cons] using hlast
        have hlen' : (r0 :: rs).length ≤ fuel := by
          simp only [List.length_cons] at hlen ⊢
          omega
        exact findFrom_isSome hj
          (Or.inr (ih j tgt fuel hcrest (by simp) hlast' hlen'))

/-- Every declared dependency of a registered key that is itself
unregistered yields its missing-dependency finding. -/
theorem missing_mem {reg : List (Key × ServiceDescriptor)} {k j : Key}
    {d : ServiceDescriptor}
    (h₁ : lookupReg reg k = some d) (h₂ : j ∈ d.deps)
    (h₃ : lookupReg reg j = none) : VMsg.missing k j ∈ missingList reg := by
  unfold missingList
  rw [List.mem_flatMap]
  refine ⟨k, ?_, ?_⟩
  · exact List.mem_dedup.2 (lookupReg_isSome_iff.1 (by simp [h₁]))
  · rw [List.mem_map]
    refine ⟨j, ?_, rfl⟩
    rw [List.mem_filter]
    refine ⟨?_, by simp [h₃]⟩
    simp [declaredDeps, h₁, h₂]

/-- The missing-dependency findings are empty exactly when every declared
dependency of every registered key is itself registered. -/
theorem missingList_nil_iff {reg : List (Key × ServiceDescriptor)} :
    missingList reg = [] ↔
      ∀ k d j, lookupReg reg k = some d → j ∈ d.deps →
        (lookupReg reg j).isSome = true := by
  constructor
  · intro h k d j h₁ h₂
    cases hj : lookupReg reg j with
    | some _ => simp
    | none =>
      have hmem := missing_mem h₁ h₂ hj
      rw [h] at hmem
      cases hmem
  · intro hall
    unfold missingList
    rw [List.flatMap_eq_nil_iff]
    intro k hk
    rw [List.map_eq_nil_iff, List.filter_eq_nil_iff]
    intro j hj
    have hks : (lookupReg reg k).isSome = true :=
      lookupReg_isSome_iff.2 (List.mem_dedup.1 hk)
    obtain ⟨d, hd⟩ := Option.isSome_iff_exists.1 hks
    have hjd : j ∈ d.deps := by
      rw [declaredDeps, hd] at hj
      exact hj
    have hsj := hall k d j hd hjd
    intro h0
    rw [Option.isNone_iff_eq_none] at h0
    rw [h0] at hsj
    simp at hsj

/-- Every circular finding reported by the validator names a genuine
declared-edge cycle. -/
theorem circular_mem_sound {reg : List (Key × ServiceDescriptor)} {v : VMsg}
    (hv : v ∈ circularList reg) :
    ∃ a p, v = VMsg.circular (a :: p) ∧ chainOk reg a p = true ∧
      p ≠ [] ∧ p.getLast? = some a := by
  unfold circularList at hv
  rw [List.mem_filterMap] at hv
  obtain ⟨a, _, hm⟩ := hv
  cases hp : findPath reg reg.length a a with
  | none => rw [hp] at hm; cases hm
  | some p =>
    rw [hp] at hm
    simp only [Option.map_some'] at hm
    obtain ⟨hc, hne, hlast⟩ := findPath_sound _ _ _ _ hp
    exact ⟨a, p, (Option.some.inj hm).symm, hc, hne, hlast⟩

/-- Every declared-edge cycle is reported: some circular finding naming a
genuine cycle is produced. -/
theorem circular_complete {reg : List (Key × ServiceDescriptor)}
    (h : HasCycle reg) :
    ∃ a p, VMsg.circular (a :: p) ∈ circularList reg ∧
      chainOk reg a p = true ∧ p ≠ [] ∧ p.getLast? = some a := by
  obtain ⟨a, p, hne, hc, hlast⟩ := h
  obtain ⟨q, hcq, hqne, hqlast, hqlen⟩ :=
    cycle_shorten p.length p a le_rfl hc hne hlast
  have hsome := findPath_complete q a a reg.length hcq hqne hqlast hqlen
  obtain ⟨q', hq'⟩ := Option.isSome_iff_exists.1 hsome
  obtain ⟨hcq', hq'ne, hq'last⟩ := findPath_sound _ _ _ _ hq'
  refine ⟨a, q', ?_, hcq', hq'ne, hq'last⟩
  unfold circularList
  rw [List.mem_filterMap]
  refine ⟨a, ?_, by rw [hq']; rfl⟩
  cases q with
  | nil => exact absurd rfl hqne
  | cons j js =>
    simp only [chainOk, Bool.and_eq_true, decide_eq_true_eq] at hcq
    have hnil : declaredDeps reg a ≠ [] := by
      intro h0
      rw [h0] at hcq
      exact absurd hcq.1 (List.not_mem_nil _)
    have hreg : (lookupReg reg a).isSome = true := by
      unfold declaredDeps at hnil
      cases hr : lookupReg reg a with
      | none => rw [hr] at hnil; simp at hnil
      | some _ => simp
    exact List.mem_dedup.2 (lookupReg_isSome_iff.1 hreg)

/-- The circular findings are empty exactly when the declared dependency
graph is acyclic. -/
theorem circularList_nil_iff {reg : List (Key × ServiceDescriptor)} :
    circularList reg = [] ↔ ¬HasCycle reg := by
  constructor
  · intro h hcyc
    obtain ⟨a, p, hmem, _⟩ := circular_complete hcyc
    rw [h] at hmem
    cases hmem
  · intro h
    unfold circularList
    rw [List.filterMap_eq_nil_iff]
    intro a _
    cases hp : findPath reg reg.length a a with
    | none => rfl
    | some p =>
      obtain ⟨hc, hne, hlast⟩ := findPath_sound _ _ _ _ hp
      exact absurd ⟨a, p, hne, hc, hlast⟩ h

/-- Claim C7: `validate()` is a pure static analysis of the registry (it
inspects only `registry`, so equal registries validate equally, and it
instantiates nothing): it returns a missing-dependency message naming both
keys for every declared dependency of a registered key that is not itself
registered, it reports a circular-dependency message naming a genuine cycle
whenever the static dependency graph has one, and it returns the empty list
exactly when the registered graph is fully satisfiable and acyclic. -/
theorem validate_static_analysis (s : Services) :
    (∀ s' : Services, s'.registry = s.registry → s'.validate = s.validate) ∧
      (∀ k d j, lookupReg s.registry k = some d → j ∈ d.deps →
        lookupReg s.registry j = none →
        (VMsg.missing k j).render ∈ s.validate) ∧
      (∀ k j, (VMsg.missing k j).render =
        "Service " ++ j ++ " is not registered (required by " ++ k ++ ")") ∧
      (HasCycle s.registry →
        ∃ a p, (VMsg.circular (a :: p)).render ∈ s.validate ∧
          chainOk s.registry a p = true ∧ p ≠ [] ∧
          p.getLast? = some a) ∧
      (s.validate = [] ↔
        ((∀ k d j, lookupReg s.registry k = some d → j ∈ d.deps →
            (lookupReg s.registry j).isSome = true) ∧
          ¬HasCycle s.registry)) := by
  refine ⟨?_, ?_, fun k j => rfl, ?_, ?_⟩
  · intro s' h
    simp [Services.validate, Services.validateMsgs, h]
  · intro k d j h₁ h₂ h₃
    exact List.mem_map_of_mem _
      (List.mem_append_left _ (missing_mem h₁ h₂ h₃))
  · intro hcyc
    obtain ⟨a, p, hmem, hc, hne, hlast⟩ := circular_complete hcyc
    exact ⟨a, p,
      List.mem_map_of_mem _ (List.mem_append_right _ hmem),
      hc, hne, hlast⟩
  · rw [show s.validate = s.validateMsgs.map VMsg.render from rfl,
      List.map_eq_nil_iff,
      show s.validateMsgs = missingList s.registry ++
        circularList s.registry from rfl,
      List.append_eq_nil, missingList_nil_iff, circularList_nil_iff]

theorem validate_static_analysis_witness :
    (VMsg.missing "IUserService" "IUserRepository").render ∈
      (emptyServices.add_singleton "IUserService"
        ["IUserRepository"]).validate :=
  (validate_static_analysis
      (emptyServices.add_singleton "IUserService" ["IUserRepository"])
    ).2.1 "IUserService" ⟨["IUserRepository"], .singleton, false⟩
    "IUserRepository" rfl (by simp) rfl
